import Mathlib

/-!
Shallow embedding of the 987 (Fibonacci 2048) game engine from
`nineeightseven/nineeightseven.py`: board representation, the
combine/slide move transform, random tile spawn, terminal detection and
the depth/breadth-sampled move search, together with proofs of the
specification claims about them.

Python's global PRNG (`random.randint`, `random.choice`,
`random.random`) is modelled as an explicit stream of natural numbers
threaded through every function that draws randomness; each primitive
draw consumes one stream element.
-/

/-- A random source: an infinite stream of naturals and a cursor.
Each draw consumes one element.  `random.randint(0, 1000000)` is the
draw reduced mod 1000001, `random.choice` over a list of length n is
the draw reduced mod n, and `random.random() < 0.9` is modelled as the
draw reduced mod 10 being below 9 (a 9-in-10 event under a uniform
draw). -/
structure Rng where
  s : Nat → Nat
  pos : Nat

/-- Consume one element of the random stream. -/
def Rng.next (r : Rng) : Nat × Rng := (r.s r.pos, ⟨r.s, r.pos + 1⟩)

/-- CELL = tuple[int, int]: a (rank, identity key) pair. -/
abbrev CELL := Nat × Nat

/-- GROUP = tuple[CELL, ...]: one line (row or column) of the board. -/
abbrev GROUP := List CELL

/-- BOARD = tuple[GROUP, ...]: the whole board, row-major. -/
abbrev BOARD := List GROUP

/-- BOARD_SIZE = 4. -/
def BOARD_SIZE : Nat := 4

/-- class Direction(enum.Enum), in declaration order UP, DOWN, LEFT,
RIGHT (iteration over the enum follows this order). -/
inductive Direction where
  | UP
  | DOWN
  | LEFT
  | RIGHT
deriving DecidableEq, Repr

/-- The list of the four directions in enumeration order, as iterated
by `for direction in Direction`. -/
def allDirections : List Direction :=
  [Direction.UP, Direction.DOWN, Direction.LEFT, Direction.RIGHT]

/-- def get_random_key(): random.randint(0, 1000000). -/
def get_random_key (r : Rng) : Nat × Rng :=
  let (k, r') := r.next
  (k % 1000001, r')

/-- Draw n fresh keys in sequence, as the list comprehension
[(0, get_random_key()) for _ in range(...)] does. -/
def drawKeys : Nat → Rng → List Nat × Rng
  | 0, r => ([], r)
  | n + 1, r =>
    let (k, r') := get_random_key r
    let (ks, r'') := drawKeys n r'
    (k :: ks, r'')

/-- def pad_values(v): raises ValueError (here: `none`) if the line has
more than BOARD_SIZE values, otherwise pads with rank-0 cells carrying
fresh random keys up to length BOARD_SIZE. -/
def pad_values (v : List CELL) (r : Rng) : Option (List CELL) × Rng :=
  if BOARD_SIZE < v.length then (none, r)
  else
    let (ks, r') := drawKeys (BOARD_SIZE - v.length) r
    (some (v ++ ks.map (fun k => ((0 : Nat), k))), r')

/-- The loop of combine_values: walk the dense cell list left to right
with the position i and the counter values_counter; an iteration with
values_counter = i + 1 is skipped (it is the cell just consumed by a
merge).  Two consecutive rank-1 cells merge to rank 2 (score + 2,
keeping the second cell's key); cells whose ranks differ by exactly 1
merge to max + 1 (score + sum of the two ranks, keeping the second
cell's key); otherwise the current cell is emitted unchanged. -/
def combineAux : List CELL → Nat → Nat → List CELL × Int
  | [], _, _ => ([], 0)
  | cur :: rest, i, vc =>
    if vc = i + 1 then
      combineAux rest (i + 1) vc
    else
      match rest with
      | nxt :: _ =>
        if cur.1 = 1 ∧ nxt.1 = 1 then
          let p := combineAux rest (i + 1) (vc + 1 + 1)
          ((2, nxt.2) :: p.1, p.2 + 2)
        else if ((cur.1 : Int) - (nxt.1 : Int)).natAbs = 1 then
          let p := combineAux rest (i + 1) (vc + 1 + 1)
          ((max cur.1 nxt.1 + 1, nxt.2) :: p.1, p.2 + ((cur.1 : Int) + (nxt.1 : Int)))
        else
          let p := combineAux rest (i + 1) (vc + 1)
          (cur :: p.1, p.2)
      | [] =>
        let p := combineAux rest (i + 1) (vc + 1)
        (cur :: p.1, p.2)

/-- def combine_values(group): drop rank-0 cells (Python truthiness
filter), then run the merge loop from position 0 with counter 0. -/
def combine_values (group : GROUP) : List CELL × Int :=
  let values := group.filter (fun cell => cell.1 != 0)
  combineAux values 0 0

/-- def reverse(group): group[::-1]. -/
def reverse (group : GROUP) : GROUP := group.reverse

/-- def ith_row(board, i): board[i]. -/
def ith_row (board : BOARD) (i : Nat) : GROUP := board.getD i []

/-- def ith_column(board, i): tuple(board[j][i] for j in range(BOARD_SIZE)). -/
def ith_column (board : BOARD) (i : Nat) : GROUP :=
  (List.range BOARD_SIZE).map (fun j => (board.getD j []).getD i (0, 0))

/-- def transpose(board): tuple(ith_column(board, i) for i in range(BOARD_SIZE)). -/
def transpose (board : BOARD) : BOARD :=
  (List.range BOARD_SIZE).map (fun i => ith_column board i)

/-- def insert_value_row(row, i, value): draw one fresh key and rebuild
the row with (value, key) at position i. -/
def insert_value_row (row : GROUP) (i : Nat) (value : Nat) (r : Rng) : GROUP × Rng :=
  let (random_value, r') := get_random_key r
  ((List.range BOARD_SIZE).map
    (fun j => if i = j then (value, random_value) else row.getD j (0, 0)), r')

/-- def insert_value(board, i, j, value): rebuild the board replacing
row i by insert_value_row(board[i], j, value); the generator calls
insert_value_row exactly once, for the matching row. -/
def insert_value (board : BOARD) (i j : Nat) (value : Nat) (r : Rng) : BOARD × Rng :=
  let (newRow, r') := insert_value_row (board.getD i []) j value r
  ((List.range BOARD_SIZE).map (fun k => if i = k then newRow else board.getD k []), r')

/-- Shared shape of the four _move_* loops: for each line, run
combine_values on f(line), pad the result, and emit g(padded line);
sum the per-line scores.  A pad failure (ValueError) propagates as
`none`.  _move_left/_move_up use f = g = id, _move_right/_move_down
use f = g = reverse. -/
def combineLines (f g : GROUP → GROUP) : List GROUP → Rng → Option (List GROUP × Int) × Rng
  | [], r => (some ([], 0), r)
  | line :: restLines, r =>
    let vs := combine_values (f line)
    match pad_values vs.1 r with
    | (none, r') => (none, r')
    | (some padded, r') =>
      match combineLines f g restLines r' with
      | (none, r'') => (none, r'')
      | (some (rows, total), r'') => (some (g padded :: rows, vs.2 + total), r'')

/-- def _move_left(self): combine each row toward index 0. -/
def _move_left (board : BOARD) (r : Rng) : Option (BOARD × Int) × Rng :=
  combineLines (fun gp => gp) (fun gp => gp)
    ((List.range BOARD_SIZE).map (fun i => ith_row board i)) r

/-- def _move_right(self): reverse each row, combine, reverse back. -/
def _move_right (board : BOARD) (r : Rng) : Option (BOARD × Int) × Rng :=
  combineLines reverse reverse
    ((List.range BOARD_SIZE).map (fun i => ith_row board i)) r

/-- def _move_up(self): combine each column toward index 0, then
transpose the assembled rows back into columns. -/
def _move_up (board : BOARD) (r : Rng) : Option (BOARD × Int) × Rng :=
  match combineLines (fun gp => gp) (fun gp => gp)
      ((List.range BOARD_SIZE).map (fun i => ith_column board i)) r with
  | (none, r') => (none, r')
  | (some (rows, total), r') => (some (transpose rows, total), r')

/-- def _move_down(self): like _move_up with each column reversed
before combining and re-reversed after padding. -/
def _move_down (board : BOARD) (r : Rng) : Option (BOARD × Int) × Rng :=
  match combineLines reverse reverse
      ((List.range BOARD_SIZE).map (fun i => ith_column board i)) r with
  | (none, r') => (none, r')
  | (some (rows, total), r') => (some (transpose rows, total), r')

/-- def _just_values(self): the flattened rank sequence
[cell[0] for row in self.board for cell in row]. -/
def just_values (board : BOARD) : List Nat :=
  (board.map (fun row => row.map Prod.fst)).flatten

/-- The direction dispatch at the top of move. -/
def moveRaw (board : BOARD) (d : Direction) (r : Rng) : Option (BOARD × Int) × Rng :=
  match d with
  | Direction.UP => _move_up board r
  | Direction.DOWN => _move_down board r
  | Direction.LEFT => _move_left board r
  | Direction.RIGHT => _move_right board r

/-- def move(self, direction): run the per-direction transform; if the
rank sequence is unchanged return (None, 0), else the new board and its
score.  The outer Option is the propagated pad_values ValueError. -/
def move (board : BOARD) (d : Direction) (r : Rng) : Option (Option BOARD × Int) × Rng :=
  match moveRaw board d r with
  | (none, r') => (none, r')
  | (some (newBoard, score), r') =>
    if just_values board = just_values newBoard then (some (none, 0), r')
    else (some (some newBoard, score), r')

/-- Python's `x is None` applied to the pair returned by move: move
returns the 2-tuple (board-or-None, score), and a tuple is never the
None singleton, so this test is constantly false. -/
def pairIsNone (_res : Option BOARD × Int) : Bool := false

/-- The generator all(self.move(direction) is None for direction in
Direction), including its short-circuit on the first false element. -/
def allMovesNone (board : BOARD) : List Direction → Rng → Option Bool × Rng
  | [], r => (some true, r)
  | d :: ds, r =>
    match move board d r with
    | (none, r') => (none, r')
    | (some res, r') =>
      if pairIsNone res then allMovesNone board ds r' else (some false, r')

/-- def is_game_over(self): all(self.move(direction) is None for
direction in Direction). -/
def is_game_over (board : BOARD) (r : Rng) : Option Bool × Rng :=
  allMovesNone board allDirections r

/-- def with_random_tile(self): collect the empty cells; if none,
return the board unchanged; otherwise choose one uniformly, choose rank
1 with probability 0.9 and rank 2 otherwise, and insert it with a fresh
key.  Draw order: cell choice, rank draw, key draw. -/
def empty_tiles (board : BOARD) : List (Nat × Nat) :=
  (List.range BOARD_SIZE).flatMap
    (fun i => ((List.range BOARD_SIZE).filter
      (fun j => ((board.getD i []).getD j (0, 0)).1 == 0)).map (fun j => (i, j)))

/-- The body of with_random_tile. -/
def with_random_tile (board : BOARD) (r : Rng) : BOARD × Rng :=
  let et := empty_tiles board
  if et.isEmpty then (board, r)
  else
    let (c, r') := r.next
    let ij := et.getD (c % et.length) (0, 0)
    let (p, r'') := r'.next
    let value := if p % 10 < 9 then 1 else 2
    insert_value board ij.1 ij.2 value r''

/-- The breadth-sample loop of best_move: for each of the n samples,
spawn a random tile on the post-move board (a fresh draw per sample)
and take the estimated score of the recursive search; sum the
estimates.  `none` propagates an exception from below. -/
def sampleSum (recur : BOARD → Rng → Option Int × Rng) (nb : BOARD) :
    Nat → Rng → Option Int × Rng
  | 0, r => (some 0, r)
  | n + 1, r =>
    let (b2, r') := with_random_tile nb r
    match recur b2 r' with
    | (none, r'') => (none, r'')
    | (some sc, r'') =>
      match sampleSum recur nb n r'' with
      | (none, r3) => (none, r3)
      | (some rest, r3) => (some (sc + rest), r3)

/-- The per-direction candidate value of best_move's loop: None when
move returns no board (the direction is skipped), otherwise the move's
immediate score plus, when depth > 0, the floor-averaged sum of breadth
recursive estimates (Python's // is floor division, Int.fdiv). -/
def dirTotal (recur : BOARD → Rng → Option Int × Rng) (depth breadth : Nat)
    (board : BOARD) (d : Direction) (r : Rng) : Option (Option Int) × Rng :=
  match move board d r with
  | (none, r') => (none, r')
  | (some (none, _), r') => (some none, r')
  | (some (some nb, score), r') =>
    if 0 < depth then
      match sampleSum recur nb breadth r' with
      | (none, r'') => (none, r'')
      | (some total, r'') =>
        (some (some (score + Int.fdiv total (breadth : Int))), r'')
    else (some (some score), r')

/-- The direction loop of best_move: iterate the directions in
enumeration order carrying (best_direction, best_score), updating only
on a strictly greater candidate value. -/
def bmLoop (recur : BOARD → Rng → Option Int × Rng) (depth breadth : Nat)
    (board : BOARD) : List Direction → Direction → Int → Rng →
    Option (Direction × Int) × Rng
  | [], bd, bs, r => (some (bd, bs), r)
  | d :: ds, bd, bs, r =>
    match dirTotal recur depth breadth board d r with
    | (none, r') => (none, r')
    | (some none, r') => bmLoop recur depth breadth board ds bd bs r'
    | (some (some t), r') =>
      if bs < t then bmLoop recur depth breadth board ds d t r'
      else bmLoop recur depth breadth board ds bd bs r'

/-- The body of best_move: the is_game_over test (with its sentinel
return) followed by the direction loop started at best_score = -1,
best_direction = UP. -/
def bmBody (recur : BOARD → Rng → Option Int × Rng) (depth breadth : Nat)
    (board : BOARD) (r : Rng) : Option (Direction × Int) × Rng :=
  match is_game_over board r with
  | (none, r') => (none, r')
  | (some true, r') => (some (Direction.UP, -123456789), r')
  | (some false, r') =>
    bmLoop recur depth breadth board allDirections Direction.UP (-1) r'

/-- def best_move(self, depth, breadth): structural recursion on depth;
at depth 0 the recursive estimator is never consulted (the loop guards
on depth > 0). -/
def best_move : Nat → BOARD → Nat → Rng → Option (Direction × Int) × Rng
  | 0, board, breadth, r =>
    bmBody (fun _ r' => (some 0, r')) 0 breadth board r
  | depth + 1, board, breadth, r =>
    bmBody (fun b2 r' =>
        match best_move depth b2 breadth r' with
        | (none, r'') => (none, r'')
        | (some p, r'') => (some p.2, r'')) (depth + 1) breadth board r

/-- The recursive estimator used by best_move at a given depth, as a
standalone function (consulted only when depth > 0). -/
def bmRecur (breadth : Nat) : Nat → BOARD → Rng → Option Int × Rng
  | 0, _, r => (some 0, r)
  | depth + 1, b2, r =>
    match best_move depth b2 breadth r with
    | (none, r'') => (none, r'')
    | (some p, r'') => (some p.2, r'')

/-- The merge walk as the specification states it: one decision at a
time on the dense list, with a consumed cell never reconsidered. -/
def combineSpec : List CELL → List CELL × Int
  | [] => ([], 0)
  | [c] => ([c], 0)
  | c :: n :: rest =>
    if c.1 = 1 ∧ n.1 = 1 then
      let p := combineSpec rest
      ((2, n.2) :: p.1, p.2 + 2)
    else if ((c.1 : Int) - (n.1 : Int)).natAbs = 1 then
      let p := combineSpec rest
      ((max c.1 n.1 + 1, n.2) :: p.1, p.2 + ((c.1 : Int) + (n.1 : Int)))
    else
      let p := combineSpec (n :: rest)
      (c :: p.1, p.2)

/-- The Board invariant: exactly BOARD_SIZE rows of BOARD_SIZE cells. -/
def WF (board : BOARD) : Prop :=
  board.length = BOARD_SIZE ∧ ∀ gp ∈ board, gp.length = BOARD_SIZE

instance (board : BOARD) : Decidable (WF board) := by
  unfold WF; infer_instance

/-- Rank projection of a line. -/
def ranksOf (gp : List CELL) : List Nat := gp.map Prod.fst

/-- Rank projection of a board. -/
def rowRanks (board : BOARD) : List (List Nat) := board.map ranksOf

/-- The rank content of a combined-and-padded line: the combined ranks
followed by zeros up to BOARD_SIZE.  Identity keys do not appear. -/
def lineRanks (gp : GROUP) : List Nat :=
  ranksOf (combine_values gp).1 ++
    List.replicate (BOARD_SIZE - (combine_values gp).1.length) 0

/-- The score contributed by one line. -/
def lineScore (gp : GROUP) : Int := (combine_values gp).2

/-- The lines the row-wise movers iterate over. -/
def linesOf (board : BOARD) : List GROUP :=
  (List.range BOARD_SIZE).map (fun i => ith_row board i)

/-- The lines the column-wise movers iterate over. -/
def colsOf (board : BOARD) : List GROUP :=
  (List.range BOARD_SIZE).map (fun i => ith_column board i)

/-- Rank-level transpose of a rank matrix. -/
def transposeR (m : List (List Nat)) : List (List Nat) :=
  (List.range BOARD_SIZE).map
    (fun i => (List.range BOARD_SIZE).map (fun j => (m.getD j []).getD i 0))

/-- The rank matrix produced by the per-direction transform, computed
without any randomness: identity keys cannot influence it. -/
def moveRanksSpec (board : BOARD) : Direction → List (List Nat)
  | Direction.UP => transposeR ((colsOf board).map lineRanks)
  | Direction.DOWN => transposeR ((colsOf board).map (fun l => (lineRanks (reverse l)).reverse))
  | Direction.LEFT => (linesOf board).map lineRanks
  | Direction.RIGHT => (linesOf board).map (fun l => (lineRanks (reverse l)).reverse)

/-- The score produced by the per-direction transform, also key-free. -/
def moveScoreSpec (board : BOARD) : Direction → Int
  | Direction.UP => ((colsOf board).map lineScore).sum
  | Direction.DOWN => ((colsOf board).map (fun l => lineScore (reverse l))).sum
  | Direction.LEFT => ((linesOf board).map lineScore).sum
  | Direction.RIGHT => ((linesOf board).map (fun l => lineScore (reverse l))).sum

/-- A fixed random stream used where a canonical Rng value is needed. -/
def zeroRng : Rng := ⟨fun _ => 0, 0⟩

/-- The candidate values best_move's loop sees, direction by direction
in enumeration order, with the same randomness consumption: `none`
entries are skipped directions. -/
def bmTotals (recur : BOARD → Rng → Option Int × Rng) (depth breadth : Nat) (board : BOARD) :
    List Direction → Rng → Option (List (Direction × Option Int)) × Rng
  | [], r => (some [], r)
  | d :: ds, r =>
    match dirTotal recur depth breadth board d r with
    | (none, r') => (none, r')
    | (some t, r') =>
      match bmTotals recur depth breadth board ds r' with
      | (none, r'') => (none, r'')
      | (some l, r'') => (some ((d, t) :: l), r'')

/-- The selection rule of best_move's loop as a pure function of the
candidate list: fold left keeping the strictly greatest value, seeded
with the initial accumulator. -/
def selectFrom : Direction → Int → List (Direction × Option Int) → Direction × Int
  | bd, bs, [] => (bd, bs)
  | bd, bs, (_, none) :: l => selectFrom bd bs l
  | bd, bs, (d, some t) :: l => if bs < t then selectFrom d t l else selectFrom bd bs l

/-- The cell of a board at row i, column j (board[i][j]). -/
def cellAt (b : BOARD) (i j : Nat) : CELL := (b.getD i []).getD j (0, 0)

/-- The number of occupied (nonzero-rank) cells of a board. -/
def occupiedCount (b : BOARD) : Nat :=
  ((just_values b).filter (fun v => v != 0)).length

/-- Reverse each row of a board (the spec's row-reversal transform). -/
def revRows (b : BOARD) : BOARD := b.map reverse

/-- The rank-and-score view of a move result: the outer Option is the
propagated pad exception, the inner Option is the no-change signal, and
boards are projected to rank matrices so identity keys are ignored. -/
def moveRanksProj (b : BOARD) (d : Direction) (r : Rng) :
    Option (Option (List (List Nat)) × Int) :=
  (move b d r).1.map (fun p => (p.1.map rowRanks, p.2))

/-- A board on which at least one direction changes the rank layout:
the specification's notion of a board that is not game over. -/
def notGameOver (b : BOARD) : Prop :=
  ∃ d b' s r', move b d zeroRng = (some (some b', s), r')

/-- The all-empty board: every cell has rank 0. -/
def emptyBoard : BOARD := List.replicate 4 (List.replicate 4 (0, 0))

/-- A board of rank-4 tiles with one empty corner: DOWN and LEFT are
its only legal moves, both pure slides of score 0, and every board
reachable from it by a legal move plus a spawned rank-1 tile is stuck. -/
def Bstar : BOARD :=
  [[(4, 0), (4, 0), (4, 0), (4, 0)],
   [(4, 0), (4, 0), (4, 0), (4, 0)],
   [(4, 0), (4, 0), (4, 0), (4, 0)],
   [(0, 0), (4, 0), (4, 0), (4, 0)]]

theorem best_move_eq (depth : Nat) (board : BOARD) (breadth : Nat) (r : Rng) :
    best_move depth board breadth r = bmBody (bmRecur breadth depth) depth breadth board r := by
  cases depth <;> rfl

theorem combineAux_one (c : CELL) (i vc : Nat) :
    combineAux [c] i vc = if vc = i + 1 then ([], 0) else ([c], 0) := by
  by_cases h : vc = i + 1 <;> simp [combineAux, h]

theorem combineAux_cons2 (cur nxt : CELL) (rest : List CELL) (i vc : Nat) :
    combineAux (cur :: nxt :: rest) i vc =
      if vc = i + 1 then combineAux (nxt :: rest) (i + 1) vc
      else if cur.1 = 1 ∧ nxt.1 = 1 then
        ((2, nxt.2) :: (combineAux (nxt :: rest) (i + 1) (vc + 1 + 1)).1,
          (combineAux (nxt :: rest) (i + 1) (vc + 1 + 1)).2 + 2)
      else if ((cur.1 : Int) - (nxt.1 : Int)).natAbs = 1 then
        ((max cur.1 nxt.1 + 1, nxt.2) :: (combineAux (nxt :: rest) (i + 1) (vc + 1 + 1)).1,
          (combineAux (nxt :: rest) (i + 1) (vc + 1 + 1)).2 + ((cur.1 : Int) + (nxt.1 : Int)))
      else (cur :: (combineAux (nxt :: rest) (i + 1) (vc + 1)).1,
        (combineAux (nxt :: rest) (i + 1) (vc + 1)).2) := rfl

theorem combineAux_skip (cur : CELL) (rest : List CELL) (i : Nat) :
    combineAux (cur :: rest) i (i + 1) = combineAux rest (i + 1) (i + 1) := by
  simp [combineAux]

theorem combineAux_eq_spec (fuel : Nat) : ∀ (l : List CELL) (i : Nat), l.length ≤ fuel →
    combineAux l i i = combineSpec l := by
  induction fuel with
  | zero =>
    intro l i h
    have : l = [] := List.eq_nil_of_length_eq_zero (Nat.le_zero.mp h)
    subst this; rfl
  | succ fl ih =>
    intro l i h
    match l with
    | [] => rfl
    | [c] =>
      rw [combineAux_one, if_neg (by omega : ¬ i = i + 1)]
      rfl
    | c :: nx :: rest =>
      rw [combineAux_cons2, if_neg (by omega : ¬ i = i + 1), combineSpec]
      by_cases h1 : c.1 = 1 ∧ nx.1 = 1
      · rw [if_pos h1, if_pos h1, combineAux_skip nx rest (i + 1),
          ih rest (i + 1 + 1) (by simp at h; omega)]
      · rw [if_neg h1, if_neg h1]
        by_cases h2 : ((c.1 : Int) - (nx.1 : Int)).natAbs = 1
        · rw [if_pos h2, if_pos h2, combineAux_skip nx rest (i + 1),
            ih rest (i + 1 + 1) (by simp at h; omega)]
        · rw [if_neg h2, if_neg h2,
            ih (nx :: rest) (i + 1) (by simp at h; simp; omega)]

theorem combine_values_eq_spec (group : GROUP) :
    combine_values group = combineSpec (group.filter (fun cell => cell.1 != 0)) :=
  combineAux_eq_spec _ _ 0 le_rfl

theorem combineSpec_length : ∀ (l : List CELL), (combineSpec l).1.length ≤ l.length := by
  intro l
  induction l using combineSpec.induct with
  | case1 => simp [combineSpec]
  | case2 c => simp [combineSpec]
  | case3 c n rest h1 ih =>
    simp only [combineSpec, if_pos h1, List.length_cons] at ih ⊢
    omega
  | case4 c n rest h1 h2 ih =>
    simp only [combineSpec, if_neg h1, if_pos h2, List.length_cons] at ih ⊢
    omega
  | case5 c n rest h1 h2 ih =>
    simp only [combineSpec, if_neg h1, if_neg h2, List.length_cons] at ih ⊢
    omega

theorem combineSpec_score_nonneg : ∀ (l : List CELL), 0 ≤ (combineSpec l).2 := by
  intro l
  induction l using combineSpec.induct with
  | case1 => simp [combineSpec]
  | case2 c => simp [combineSpec]
  | case3 c n rest h1 ih =>
    simp only [combineSpec, if_pos h1] at ih ⊢
    omega
  | case4 c n rest h1 h2 ih =>
    simp only [combineSpec, if_neg h1, if_pos h2] at ih ⊢
    positivity
  | case5 c n rest h1 h2 ih =>
    simp only [combineSpec, if_neg h1, if_neg h2] at ih ⊢
    omega

theorem combine_values_length (group : GROUP) :
    (combine_values group).1.length ≤ group.length := by
  rw [combine_values_eq_spec]
  exact le_trans (combineSpec_length _) (List.length_filter_le _ _)

theorem combine_values_score_nonneg (group : GROUP) :
    0 ≤ (combine_values group).2 := by
  rw [combine_values_eq_spec]
  exact combineSpec_score_nonneg _

theorem length_four_destruct {α : Type} (l : List α) (h : l.length = 4) :
    ∃ a b c d, l = [a, b, c, d] := by
  match l with
  | [a, b, c, d] => exact ⟨a, b, c, d, rfl⟩
  | [] | [_] | [_, _] | [_, _, _] => simp at h
  | _ :: _ :: _ :: _ :: _ :: _ => simp at h

theorem WF_destruct (board : BOARD) (h : WF board) :
    ∃ g0 g1 g2 g3, board = [g0, g1, g2, g3] ∧
      g0.length = 4 ∧ g1.length = 4 ∧ g2.length = 4 ∧ g3.length = 4 := by
  obtain ⟨hlen, hrows⟩ := h
  obtain ⟨g0, g1, g2, g3, rfl⟩ := length_four_destruct board hlen
  refine ⟨g0, g1, g2, g3, rfl, ?_, ?_, ?_, ?_⟩ <;>
    apply hrows <;> simp

theorem drawKeys_length (n : Nat) : ∀ r, (drawKeys n r).1.length = n := by
  induction n with
  | zero => intro r; rfl
  | succ m ih =>
    intro r
    simp [drawKeys, get_random_key, Rng.next, ih]

theorem pad_values_some (v : List CELL) (r : Rng) (h : v.length ≤ BOARD_SIZE) :
    ∃ p r', pad_values v r = (some p, r') ∧ p.length = BOARD_SIZE ∧
      ranksOf p = ranksOf v ++ List.replicate (BOARD_SIZE - v.length) 0 := by
  unfold pad_values
  rw [if_neg (by omega)]
  refine ⟨_, _, rfl, ?_, ?_⟩
  · simp [drawKeys_length, BOARD_SIZE] at h ⊢
    omega
  · show ranksOf (v ++ _) = _
    rw [ranksOf, List.map_append]
    congr 1
    rw [List.map_map]
    have hmap : ∀ ks : List Nat,
        ks.map (Prod.fst ∘ fun k => ((0 : Nat), k)) = List.replicate ks.length 0 := by
      intro ks
      induction ks with
      | nil => rfl
      | cons a t iht =>
        simp only [List.map_cons, List.replicate_succ, iht, List.length_cons]
        rfl
    rw [hmap, drawKeys_length]

theorem pad_values_none_iff (v : List CELL) (r : Rng) :
    (pad_values v r).1 = none ↔ BOARD_SIZE < v.length := by
  unfold pad_values
  by_cases h : BOARD_SIZE < v.length <;> simp [h]

theorem combineLines_char (f g : GROUP → GROUP) (rg : List Nat → List Nat)
    (hg : ∀ p, ranksOf (g p) = rg (ranksOf p))
    (hgl : ∀ p, (g p).length = p.length) :
    ∀ (rows : List GROUP) (r : Rng),
      (∀ line ∈ rows, (combine_values (f line)).1.length ≤ BOARD_SIZE) →
      ∃ out r', combineLines f g rows r =
          (some (out, (rows.map (fun l => lineScore (f l))).sum), r') ∧
        rowRanks out = rows.map (fun l => rg (lineRanks (f l))) ∧
        (∀ o ∈ out, o.length = BOARD_SIZE) ∧
        out.length = rows.length := by
  intro rows
  induction rows with
  | nil => intro r _; exact ⟨[], r, rfl, rfl, by simp, rfl⟩
  | cons line restLines ih =>
    intro r hlen
    obtain ⟨p, r1, hp, hplen, hpranks⟩ :=
      pad_values_some (combine_values (f line)).1 r (hlen line (by simp))
    obtain ⟨out, r2, hrec, hranks, holen, hocount⟩ :=
      ih r1 (fun l hl => hlen l (by simp [hl]))
    refine ⟨g p :: out, r2, ?_, ?_, ?_, ?_⟩
    · simp only [combineLines, hp, hrec, lineScore]
      simp
    · simp only [rowRanks, List.map_cons] at hranks ⊢
      rw [hranks, hg, hpranks]
      rfl
    · intro o ho
      rcases List.mem_cons.mp ho with h | h
      · rw [h, hgl]; exact hplen
      · exact holen o h
    · simp [hocount]

theorem linesOf_eq (board : BOARD) (h : WF board) : linesOf board = board := by
  obtain ⟨g0, g1, g2, g3, rfl, -, -, -, -⟩ := WF_destruct board h
  rfl

theorem colsOf_length (board : BOARD) : ∀ gp ∈ colsOf board, gp.length = BOARD_SIZE := by
  intro gp hgp
  simp [colsOf, ith_column] at hgp
  obtain ⟨i, -, rfl⟩ := hgp
  simp

theorem getD_map_ranks (X : BOARD) : ∀ j, (X.map ranksOf).getD j [] = ranksOf (X.getD j []) := by
  induction X with
  | nil => intro j; cases j <;> rfl
  | cons hd tl ih =>
    intro j
    cases j with
    | zero => rfl
    | succ n => exact ih n

theorem getD_ranks_fst (row : GROUP) : ∀ i, (ranksOf row).getD i 0 = (row.getD i (0, 0)).fst := by
  induction row with
  | nil => intro i; cases i <;> rfl
  | cons hd tl ih =>
    intro i
    cases i with
    | zero => rfl
    | succ n => exact ih n

theorem ranksOf_ith_column (X : BOARD) (i : Nat) :
    ranksOf (ith_column X i) =
      (List.range BOARD_SIZE).map (fun j => ((X.map ranksOf).getD j []).getD i 0) := by
  simp only [ranksOf, ith_column, List.map_map]
  apply List.map_congr_left
  intro j _
  simp only [Function.comp_apply]
  rw [getD_map_ranks, getD_ranks_fst]

theorem rowRanks_transpose (X : BOARD) : rowRanks (transpose X) = transposeR (rowRanks X) := by
  simp only [rowRanks, transpose, List.map_map, transposeR]
  apply List.map_congr_left
  intro i _
  simp only [Function.comp_apply]
  exact ranksOf_ith_column X i

theorem transpose_WF (X : BOARD) : WF (transpose X) := by
  constructor
  · simp [transpose]
  · intro gp hgp
    simp [transpose, ith_column] at hgp
    obtain ⟨i, -, rfl⟩ := hgp
    simp

theorem moveRaw_char (board : BOARD) (h : WF board) (d : Direction) (r : Rng) :
    ∃ out r', moveRaw board d r = (some (out, moveScoreSpec board d), r') ∧
      rowRanks out = moveRanksSpec board d ∧ WF out := by
  have hrowlen : ∀ line ∈ linesOf board, line.length = BOARD_SIZE := by
    rw [linesOf_eq board h]; exact h.2
  have hcombrow : ∀ line ∈ linesOf board, (combine_values line).1.length ≤ BOARD_SIZE := by
    intro line hl; exact le_trans (combine_values_length line) (le_of_eq (hrowlen line hl))
  have hcombrowrev : ∀ line ∈ linesOf board, (combine_values (reverse line)).1.length ≤ BOARD_SIZE := by
    intro line hl
    refine le_trans (combine_values_length _) ?_
    simp [reverse, hrowlen line hl]
  have hcombcol : ∀ line ∈ colsOf board, (combine_values line).1.length ≤ BOARD_SIZE := by
    intro line hl; exact le_trans (combine_values_length line) (le_of_eq (colsOf_length board line hl))
  have hcombcolrev : ∀ line ∈ colsOf board, (combine_values (reverse line)).1.length ≤ BOARD_SIZE := by
    intro line hl
    refine le_trans (combine_values_length _) ?_
    simp [reverse, colsOf_length board line hl]
  have hcount : (linesOf board).length = BOARD_SIZE := by simp [linesOf]
  have hccount : (colsOf board).length = BOARD_SIZE := by simp [colsOf]
  cases d with
  | LEFT =>
    obtain ⟨out, r', heq, hranks, holen, hocount⟩ :=
      combineLines_char (fun gp => gp) (fun gp => gp) (fun rk => rk)
        (fun p => rfl) (fun p => rfl) (linesOf board) r hcombrow
    exact ⟨out, r', heq, by simpa using hranks, ⟨hocount.trans hcount, holen⟩⟩
  | RIGHT =>
    obtain ⟨out, r', heq, hranks, holen, hocount⟩ :=
      combineLines_char reverse reverse List.reverse
        (fun p => by simp [reverse, ranksOf]) (fun p => by simp [reverse])
        (linesOf board) r hcombrowrev
    exact ⟨out, r', heq, by simpa using hranks, ⟨hocount.trans hcount, holen⟩⟩
  | UP =>
    obtain ⟨out, r', heq, hranks, holen, hocount⟩ :=
      combineLines_char (fun gp => gp) (fun gp => gp) (fun rk => rk)
        (fun p => rfl) (fun p => rfl) (colsOf board) r hcombcol
    refine ⟨transpose out, r', ?_, ?_, transpose_WF out⟩
    · show _move_up board r = _
      unfold _move_up
      rw [show ((List.range BOARD_SIZE).map (fun i => ith_column board i)) = colsOf board from rfl]
      rw [heq]
      simp [moveScoreSpec]
    · rw [rowRanks_transpose, hranks]
      simp [moveRanksSpec]
  | DOWN =>
    obtain ⟨out, r', heq, hranks, holen, hocount⟩ :=
      combineLines_char reverse reverse List.reverse
        (fun p => by simp [reverse, ranksOf]) (fun p => by simp [reverse])
        (colsOf board) r hcombcolrev
    refine ⟨transpose out, r', ?_, ?_, transpose_WF out⟩
    · show _move_down board r = _
      unfold _move_down
      rw [show ((List.range BOARD_SIZE).map (fun i => ith_column board i)) = colsOf board from rfl]
      rw [heq]
      simp [moveScoreSpec]
    · rw [rowRanks_transpose, hranks]
      simp [moveRanksSpec]

theorem just_values_eq (X : BOARD) : just_values X = (rowRanks X).flatten := rfl

theorem flatten_inj : ∀ (xs ys : List (List Nat)),
    (∀ x ∈ xs, x.length = BOARD_SIZE) → (∀ y ∈ ys, y.length = BOARD_SIZE) →
    (xs.flatten = ys.flatten ↔ xs = ys) := by
  intro xs
  induction xs with
  | nil =>
    intro ys _ hy
    cases ys with
    | nil => simp
    | cons y ys' =>
      simp only [List.flatten_nil, List.flatten_cons]
      constructor
      · intro h
        exfalso
        have hyl : y.length = BOARD_SIZE := hy y (by simp)
        have hl := congrArg List.length h
        simp [hyl, BOARD_SIZE] at hl
        omega
      · intro h
        simp at h
  | cons x xs' ih =>
    intro ys hx hy
    cases ys with
    | nil =>
      simp only [List.flatten_nil, List.flatten_cons]
      constructor
      · intro h
        exfalso
        have hxl : x.length = BOARD_SIZE := hx x (by simp)
        have hl := congrArg List.length h
        simp [hxl, BOARD_SIZE] at hl
      · intro h
        simp at h
    | cons y ys' =>
      simp only [List.flatten_cons]
      constructor
      · intro h
        have hxl : x.length = BOARD_SIZE := hx x (by simp)
        have hyl : y.length = BOARD_SIZE := hy y (by simp)
        obtain ⟨h1, h2⟩ := List.append_inj h (hxl.trans hyl.symm)
        have h3 := (ih ys' (fun a ha => hx a (by simp [ha])) (fun a ha => hy a (by simp [ha]))).mp h2
        rw [h1, h3]
      · intro h
        injection h with h1 h2
        rw [h1, h2]

theorem rowRanks_rows_of_WF (X : BOARD) (h : WF X) :
    ∀ row ∈ rowRanks X, row.length = BOARD_SIZE := by
  intro row hr
  simp only [rowRanks, List.mem_map] at hr
  obtain ⟨gp, hgp, rfl⟩ := hr
  simp [ranksOf, h.2 gp hgp]

theorem just_values_iff (X Y : BOARD)
    (hx : ∀ row ∈ rowRanks X, row.length = BOARD_SIZE)
    (hy : ∀ row ∈ rowRanks Y, row.length = BOARD_SIZE) :
    just_values X = just_values Y ↔ rowRanks X = rowRanks Y := by
  rw [just_values_eq, just_values_eq]
  exact flatten_inj _ _ hx hy

theorem moveRanksSpec_rows (b : BOARD) (h : WF b) (d : Direction) :
    ∀ row ∈ moveRanksSpec b d, row.length = BOARD_SIZE := by
  obtain ⟨out, r', -, hranks, hWFout⟩ := moveRaw_char b h d zeroRng
  rw [← hranks]
  exact rowRanks_rows_of_WF out hWFout

theorem move_char (b : BOARD) (h : WF b) (d : Direction) (r : Rng) :
    (just_values b = (moveRanksSpec b d).flatten →
      ∃ r', move b d r = (some (none, 0), r')) ∧
    (just_values b ≠ (moveRanksSpec b d).flatten →
      ∃ out r', move b d r = (some (some out, moveScoreSpec b d), r') ∧
        rowRanks out = moveRanksSpec b d ∧ WF out) := by
  obtain ⟨out, r', hraw, hranks, hWFout⟩ := moveRaw_char b h d r
  have hjv : just_values out = (moveRanksSpec b d).flatten := by
    rw [just_values_eq, hranks]
  constructor
  · intro heq
    refine ⟨r', ?_⟩
    rw [move, hraw]
    have hcond : just_values b = just_values out := heq.trans hjv.symm
    simp [hcond]
  · intro hne
    refine ⟨out, r', ?_, hranks, hWFout⟩
    rw [move, hraw]
    have hcond : ¬ just_values b = just_values out := fun hc => hne (hc.trans hjv)
    simp [hcond]

theorem move_some (b : BOARD) (h : WF b) (d : Direction) (r : Rng) :
    ∃ res r', move b d r = (some res, r') ∧
      (∀ out s, res = (some out, s) → WF out) := by
  obtain ⟨hn, hs⟩ := move_char b h d r
  by_cases heq : just_values b = (moveRanksSpec b d).flatten
  · obtain ⟨r', hmv⟩ := hn heq
    exact ⟨(none, 0), r', hmv, by intro out s hcontra; simp at hcontra⟩
  · obtain ⟨out, r', hmv, -, hWFout⟩ := hs heq
    refine ⟨(some out, moveScoreSpec b d), r', hmv, ?_⟩
    intro out' s' hinj
    injection hinj with h1 h2
    injection h1 with h1
    rw [← h1]
    exact hWFout

theorem combineLines_score_nonneg (f g : GROUP → GROUP) :
    ∀ (rows : List GROUP) (r : Rng) (out : List GROUP) (s : Int) (r' : Rng),
      combineLines f g rows r = (some (out, s), r') → 0 ≤ s := by
  intro rows
  induction rows with
  | nil =>
    intro r out s r' h
    simp [combineLines] at h
    omega
  | cons line rest ih =>
    intro r out s r' h
    rw [combineLines] at h
    split at h
    · simp at h
    · split at h
      · simp at h
      · rename_i padded r1 rows' total r2 heq1 heq2
        injection h with h1 h2
        injection h1 with h1
        injection h1 with h1a h1b
        have h0 := combine_values_score_nonneg (f line)
        have h3 := ih _ _ _ _ heq2
        omega

theorem moveRaw_score_nonneg (b : BOARD) (d : Direction) (r : Rng) (out : BOARD)
    (s : Int) (r' : Rng) (h : moveRaw b d r = (some (out, s), r')) : 0 ≤ s := by
  cases d with
  | LEFT => exact combineLines_score_nonneg _ _ _ _ _ _ _ h
  | RIGHT => exact combineLines_score_nonneg _ _ _ _ _ _ _ h
  | UP =>
    rw [moveRaw, _move_up] at h
    split at h
    · simp at h
    · rename_i rows total r1 heq
      injection h with h1 h2
      injection h1 with h1
      injection h1 with h1a h1b
      subst h1b
      exact combineLines_score_nonneg _ _ _ _ _ _ _ heq
  | DOWN =>
    rw [moveRaw, _move_down] at h
    split at h
    · simp at h
    · rename_i rows total r1 heq
      injection h with h1 h2
      injection h1 with h1
      injection h1 with h1a h1b
      subst h1b
      exact combineLines_score_nonneg _ _ _ _ _ _ _ heq

theorem move_score_nonneg_any (b : BOARD) (d : Direction) (r : Rng)
    (res : Option BOARD × Int) (r' : Rng) (h : move b d r = (some res, r')) :
    0 ≤ res.2 := by
  rw [move] at h
  split at h
  · simp at h
  · rename_i nb score r1 heq
    split at h
    · injection h with h1 h2
      injection h1 with h1
      simp [← h1]
    · injection h with h1 h2
      injection h1 with h1
      rw [← h1]
      exact moveRaw_score_nonneg b d r nb score r1 heq

theorem is_game_over_false (b : BOARD) (h : WF b) (r : Rng) :
    ∃ r', is_game_over b r = (some false, r') := by
  obtain ⟨res, r', hmv, -⟩ := move_some b h Direction.UP r
  refine ⟨r', ?_⟩
  rw [is_game_over, allDirections, allMovesNone, hmv]
  simp [pairIsNone]

theorem getD_mem_of_lt {α : Type} (l : List α) (k : Nat) (d : α) (hk : k < l.length) :
    l.getD k d ∈ l := by
  rw [List.getD_eq_getElem l d hk]
  exact List.getElem_mem hk

theorem insert_value_WF (b : BOARD) (hb : WF b) (i j v : Nat) (r : Rng) :
    WF (insert_value b i j v r).1 := by
  constructor
  · simp [insert_value]
  · intro gp hgp
    simp only [insert_value, insert_value_row, List.mem_map, List.mem_range] at hgp
    obtain ⟨k, hk, hrow⟩ := hgp
    by_cases hik : i = k
    · rw [← hrow]
      simp [hik]
    · rw [← hrow]
      simp only [if_neg hik]
      have hbk : k < b.length := by rw [hb.1]; exact hk
      exact hb.2 _ (getD_mem_of_lt b k [] hbk)

theorem with_random_tile_WF (b : BOARD) (hb : WF b) (r : Rng) :
    WF (with_random_tile b r).1 := by
  rw [with_random_tile]
  split
  · exact hb
  · exact insert_value_WF b hb _ _ _ _

theorem bmLoop_eq_select (recur : BOARD → Rng → Option Int × Rng) (depth breadth : Nat)
    (board : BOARD) :
    ∀ (ds : List Direction) (bd : Direction) (bs : Int) (r : Rng),
      bmLoop recur depth breadth board ds bd bs r =
        (match bmTotals recur depth breadth board ds r with
         | (none, r') => (none, r')
         | (some l, r') => (some (selectFrom bd bs l), r')) := by
  intro ds
  induction ds with
  | nil => intro bd bs r; rfl
  | cons d ds' ih =>
    intro bd bs r
    cases hdt : dirTotal recur depth breadth board d r with
    | mk t? r1 =>
      cases t? with
      | none => simp only [bmLoop, bmTotals, hdt]
      | some t =>
        cases t with
        | none =>
          simp only [bmLoop, bmTotals, hdt, ih]
          cases hbt : bmTotals recur depth breadth board ds' r1 with
          | mk l? r2 =>
            cases l? with
            | none => simp
            | some l => simp [selectFrom]
        | some tv =>
          simp only [bmLoop, bmTotals, hdt, ih]
          cases hbt : bmTotals recur depth breadth board ds' r1 with
          | mk l? r2 =>
            cases l? with
            | none => by_cases hlt : bs < tv <;> simp [hlt]
            | some l => by_cases hlt : bs < tv <;> simp [hlt, selectFrom]

theorem selectFrom_cases : ∀ (l : List (Direction × Option Int)) (bd : Direction) (bs : Int),
    (selectFrom bd bs l = (bd, bs) ∧ ∀ d t, (d, some t) ∈ l → t ≤ bs)
    ∨ (∃ l1 d t l2, l = l1 ++ (d, some t) :: l2 ∧ selectFrom bd bs l = (d, t) ∧ bs < t ∧
        (∀ d' t', (d', some t') ∈ l1 → t' < t) ∧ (∀ d' t', (d', some t') ∈ l2 → t' ≤ t)) := by
  intro l
  induction l with
  | nil => intro bd bs; left; exact ⟨rfl, by simp⟩
  | cons e rest ih =>
    intro bd bs
    obtain ⟨d0, t?⟩ := e
    cases t? with
    | none =>
      rcases ih bd bs with ⟨h1, h2⟩ | ⟨l1, d, t, l2, hsplit, hsel, hlt, hl1, hl2⟩
      · left
        refine ⟨h1, ?_⟩
        intro d t hmem
        rcases List.mem_cons.mp hmem with hc | hc
        · injection hc with hca hcb
          cases hcb
        · exact h2 d t hc
      · right
        refine ⟨(d0, none) :: l1, d, t, l2, by rw [hsplit]; rfl, hsel, hlt, ?_, hl2⟩
        intro d' t' hmem
        rcases List.mem_cons.mp hmem with hc | hc
        · injection hc with hca hcb
          cases hcb
        · exact hl1 d' t' hc
    | some tv =>
      by_cases hbs : bs < tv
      · rcases ih d0 tv with ⟨h1, h2⟩ | ⟨l1, d, t, l2, hsplit, hsel, hlt, hl1, hl2⟩
        · right
          refine ⟨[], d0, tv, rest, by simp, ?_, hbs, by simp, h2⟩
          rw [selectFrom, if_pos hbs]
          exact h1
        · right
          refine ⟨(d0, some tv) :: l1, d, t, l2, by rw [hsplit]; rfl, ?_,
            lt_trans hbs hlt, ?_, hl2⟩
          · rw [selectFrom, if_pos hbs]
            exact hsel
          · intro d' t' hmem
            rcases List.mem_cons.mp hmem with hc | hc
            · injection hc with hca hcb
              injection hcb with hcb
              rw [hcb]
              exact hlt
            · exact hl1 d' t' hc
      · rcases ih bd bs with ⟨h1, h2⟩ | ⟨l1, d, t, l2, hsplit, hsel, hlt, hl1, hl2⟩
        · left
          refine ⟨?_, ?_⟩
          · rw [selectFrom, if_neg hbs]
            exact h1
          · intro d' t' hmem
            rcases List.mem_cons.mp hmem with hc | hc
            · injection hc with hca hcb
              injection hcb with hcb
              rw [hcb]
              omega
            · exact h2 d' t' hc
        · right
          refine ⟨(d0, some tv) :: l1, d, t, l2, by rw [hsplit]; rfl, ?_, hlt, ?_, hl2⟩
          · rw [selectFrom, if_neg hbs]
            exact hsel
          · intro d' t' hmem
            rcases List.mem_cons.mp hmem with hc | hc
            · injection hc with hca hcb
              injection hcb with hcb
              rw [hcb]
              omega
            · exact hl1 d' t' hc

theorem selectFrom_ge (l : List (Direction × Option Int)) (bd : Direction) (bs : Int) :
    bs ≤ (selectFrom bd bs l).2 := by
  rcases selectFrom_cases l bd bs with ⟨h1, -⟩ | ⟨l1, d, t, l2, -, hsel, hlt, -, -⟩
  · rw [h1]
  · rw [hsel]
    exact le_of_lt hlt

theorem sampleSum_total (recur : BOARD → Rng → Option Int × Rng)
    (hrec : ∀ b2 r, WF b2 → ∃ sc r', recur b2 r = (some sc, r'))
    (nb : BOARD) (hnb : WF nb) :
    ∀ (n : Nat) (r : Rng), ∃ sc r', sampleSum recur nb n r = (some sc, r') := by
  intro n
  induction n with
  | zero => intro r; exact ⟨0, r, rfl⟩
  | succ m ih =>
    intro r
    cases hw : with_random_tile nb r with
    | mk b2 r0 =>
      have hWFb2 : WF b2 := by
        have hW := with_random_tile_WF nb hnb r
        rw [hw] at hW
        exact hW
      obtain ⟨sc, r1, hr⟩ := hrec b2 r0 hWFb2
      obtain ⟨rest, r2, hrest⟩ := ih r1
      refine ⟨sc + rest, r2, ?_⟩
      rw [sampleSum, hw]
      simp [hr, hrest]

theorem dirTotal_total (recur : BOARD → Rng → Option Int × Rng)
    (hrec : ∀ b2 r, WF b2 → ∃ sc r', recur b2 r = (some sc, r'))
    (depth breadth : Nat) (b : BOARD) (hb : WF b) (d : Direction) (r : Rng) :
    ∃ t r', dirTotal recur depth breadth b d r = (some t, r') := by
  obtain ⟨hnone, hsome⟩ := move_char b hb d r
  by_cases heq : just_values b = (moveRanksSpec b d).flatten
  · obtain ⟨r', hmv⟩ := hnone heq
    refine ⟨none, r', ?_⟩
    rw [dirTotal, hmv]
  · obtain ⟨out, r', hmv, -, hWFout⟩ := hsome heq
    by_cases hd : 0 < depth
    · obtain ⟨total, r'', hss⟩ := sampleSum_total recur hrec out hWFout breadth r'
      refine ⟨some (moveScoreSpec b d + Int.fdiv total (breadth : Int)), r'', ?_⟩
      rw [dirTotal, hmv]
      simp [hd, hss]
    · refine ⟨some (moveScoreSpec b d), r', ?_⟩
      rw [dirTotal, hmv]
      simp [hd]

theorem bmTotals_total (recur : BOARD → Rng → Option Int × Rng)
    (hrec : ∀ b2 r, WF b2 → ∃ sc r', recur b2 r = (some sc, r'))
    (depth breadth : Nat) (b : BOARD) (hb : WF b) :
    ∀ (ds : List Direction) (r : Rng),
      ∃ l r', bmTotals recur depth breadth b ds r = (some l, r') := by
  intro ds
  induction ds with
  | nil => intro r; exact ⟨[], r, rfl⟩
  | cons d ds' ih =>
    intro r
    obtain ⟨t, r1, hdt⟩ := dirTotal_total recur hrec depth breadth b hb d r
    obtain ⟨l, r2, hbt⟩ := ih r1
    refine ⟨(d, t) :: l, r2, ?_⟩
    rw [bmTotals, hdt]
    simp [hbt]

theorem bmBody_char (recur : BOARD → Rng → Option Int × Rng)
    (hrec : ∀ b2 r, WF b2 → ∃ sc r', recur b2 r = (some sc, r'))
    (depth breadth : Nat) (b : BOARD) (hb : WF b) (r : Rng) :
    ∃ l r1 r2, is_game_over b r = (some false, r1) ∧
      bmTotals recur depth breadth b allDirections r1 = (some l, r2) ∧
      bmBody recur depth breadth b r = (some (selectFrom Direction.UP (-1) l), r2) := by
  obtain ⟨r1, hgo⟩ := is_game_over_false b hb r
  obtain ⟨l, r2, hbt⟩ := bmTotals_total recur hrec depth breadth b hb allDirections r1
  refine ⟨l, r1, r2, hgo, hbt, ?_⟩
  rw [bmBody, hgo]
  simp only [bmLoop_eq_select, hbt]

theorem best_move_total (depth : Nat) : ∀ (b : BOARD) (breadth : Nat) (r : Rng), WF b →
    ∃ p r', best_move depth b breadth r = (some p, r') := by
  induction depth with
  | zero =>
    intro b breadth r hb
    obtain ⟨l, r1, r2, -, -, hbody⟩ :=
      bmBody_char (bmRecur breadth 0) (fun b2 r0 _ => ⟨0, r0, rfl⟩) 0 breadth b hb r
    exact ⟨selectFrom Direction.UP (-1) l, r2, (best_move_eq 0 b breadth r).trans hbody⟩
  | succ dd ih =>
    intro b breadth r hb
    have hrec : ∀ b2 r0, WF b2 → ∃ sc r', bmRecur breadth (dd + 1) b2 r0 = (some sc, r') := by
      intro b2 r0 hb2
      obtain ⟨p, r', hbm⟩ := ih b2 breadth r0 hb2
      refine ⟨p.2, r', ?_⟩
      rw [bmRecur, hbm]
    obtain ⟨l, r1, r2, -, -, hbody⟩ :=
      bmBody_char (bmRecur breadth (dd + 1)) hrec (dd + 1) breadth b hb r
    exact ⟨selectFrom Direction.UP (-1) l, r2, (best_move_eq (dd + 1) b breadth r).trans hbody⟩

theorem bmRecur_total (breadth depth : Nat) :
    ∀ (b2 : BOARD) (r : Rng), WF b2 →
      ∃ sc r', bmRecur breadth depth b2 r = (some sc, r') := by
  cases depth with
  | zero => intro b2 r _; exact ⟨0, r, rfl⟩
  | succ dd =>
    intro b2 r hb2
    obtain ⟨p, r', hbm⟩ := best_move_total dd b2 breadth r hb2
    refine ⟨p.2, r', ?_⟩
    rw [bmRecur, hbm]

/-- best_move, characterized: for a well-formed board, the is_game_over
test returns false (the tuple-is-None bug), and the result is the
selection fold over the per-direction candidate list. -/
theorem best_move_char (depth breadth : Nat) (b : BOARD) (hb : WF b) (r : Rng) :
    ∃ l r1 r2, is_game_over b r = (some false, r1) ∧
      bmTotals (bmRecur breadth depth) depth breadth b allDirections r1 = (some l, r2) ∧
      best_move depth b breadth r = (some (selectFrom Direction.UP (-1) l), r2) := by
  obtain ⟨l, r1, r2, hgo, hbt, hbody⟩ :=
    bmBody_char (bmRecur breadth depth) (bmRecur_total breadth depth) depth breadth b hb r
  exact ⟨l, r1, r2, hgo, hbt, (best_move_eq depth b breadth r).trans hbody⟩

theorem getD_range_map {α : Type} (f : Nat → α) (n k : Nat) (d : α) (hk : k < n) :
    ((List.range n).map f).getD k d = f k := by
  have hk' : k < ((List.range n).map f).length := by simp [hk]
  rw [List.getD_eq_getElem _ d hk', List.getElem_map, List.getElem_range]

theorem empty_tiles_mem (b : BOARD) (i j : Nat) :
    (i, j) ∈ empty_tiles b ↔ i < BOARD_SIZE ∧ j < BOARD_SIZE ∧ (cellAt b i j).1 = 0 := by
  simp only [empty_tiles, List.mem_flatMap, List.mem_map, List.mem_filter, List.mem_range,
    cellAt]
  constructor
  · rintro ⟨a, ha, c, ⟨hc, hz⟩, heq⟩
    injection heq with h1 h2
    subst h1; subst h2
    exact ⟨ha, hc, by simpa using hz⟩
  · rintro ⟨hi, hj, hz⟩
    exact ⟨i, hi, j, ⟨hj, by simpa using hz⟩, rfl⟩

theorem insert_value_cellAt_self (b : BOARD) (i j v : Nat) (r : Rng)
    (hi : i < BOARD_SIZE) (hj : j < BOARD_SIZE) :
    cellAt (insert_value b i j v r).1 i j = (v, (get_random_key r).1) := by
  rw [insert_value, insert_value_row, cellAt]
  simp only []
  rw [getD_range_map _ _ _ _ hi, if_pos rfl, getD_range_map _ _ _ _ hj, if_pos rfl]

theorem insert_value_cellAt_other (b : BOARD) (i j v : Nat) (r : Rng)
    (i' j' : Nat) (hi' : i' < BOARD_SIZE) (hj' : j' < BOARD_SIZE)
    (hne : (i', j') ≠ (i, j)) :
    cellAt (insert_value b i j v r).1 i' j' = cellAt b i' j' := by
  rw [insert_value, insert_value_row, cellAt]
  simp only []
  rw [getD_range_map _ _ _ _ hi']
  by_cases hii : i = i'
  · subst hii
    have hjj : ¬ j = j' := by
      intro hc
      exact hne (by rw [hc])
    rw [if_pos rfl, getD_range_map _ _ _ _ hj', if_neg hjj]
    rfl
  · rw [if_neg hii]
    rfl

theorem count_ranks_insert_row (row : GROUP) (hlen : row.length = 4) (j v key : Nat)
    (hj : j < 4) (hz : (row.getD j (0, 0)).1 = 0) (hv : v ≠ 0) :
    (((List.range BOARD_SIZE).map
        (fun jj => if j = jj then (v, key) else row.getD jj (0, 0))).map Prod.fst).countP
          (fun x => x != 0)
      = (row.map Prod.fst).countP (fun x => x != 0) + 1 := by
  obtain ⟨c0, c1, c2, c3, rfl⟩ := length_four_destruct row hlen
  interval_cases j <;>
  · simp only [show List.range BOARD_SIZE = [0, 1, 2, 3] from rfl, List.map_cons,
      List.map_nil, List.countP_cons, List.countP_nil]
    simp_all <;> omega

theorem insert_value_rows (b : BOARD) (hb : WF b) (i j v : Nat) (r : Rng)
    (hi : i < BOARD_SIZE) :
    (insert_value b i j v r).1 =
      b.set i ((List.range BOARD_SIZE).map
        (fun jj => if j = jj then (v, (get_random_key r).1) else ((b.getD i []).getD jj (0, 0)))) := by
  obtain ⟨g0, g1, g2, g3, rfl, -, -, -, -⟩ := WF_destruct b hb
  simp only [BOARD_SIZE] at hi
  interval_cases i <;> rfl

theorem occupied_insert (b : BOARD) (hb : WF b) (i j v : Nat) (r : Rng)
    (hi : i < BOARD_SIZE) (hj : j < BOARD_SIZE) (hz : (cellAt b i j).1 = 0) (hv : v ≠ 0) :
    occupiedCount (insert_value b i j v r).1 = occupiedCount b + 1 := by
  rw [insert_value_rows b hb i j v r hi]
  obtain ⟨g0, g1, g2, g3, rfl, h0, h1, h2, h3⟩ := WF_destruct b hb
  simp only [BOARD_SIZE] at hi
  simp only [occupiedCount, just_values, ← List.countP_eq_length_filter]
  interval_cases i <;>
  · simp only [List.set_cons_zero, List.set_cons_succ, List.getD_cons_zero,
      List.getD_cons_succ, List.map_cons, List.map_nil, List.flatten_cons, List.flatten_nil,
      List.countP_append]
    rw [count_ranks_insert_row _ (by assumption) j v _
      (by simpa [BOARD_SIZE] using hj) (by simpa [cellAt] using hz) hv]
    omega

theorem revRows_WF (b : BOARD) (hb : WF b) : WF (revRows b) := by
  constructor
  · simp [revRows, hb.1]
  · intro gp hgp
    simp only [revRows, List.mem_map] at hgp
    obtain ⟨g, hg, rfl⟩ := hgp
    simp [reverse, hb.2 g hg]

theorem rowRanks_revRows (b : BOARD) : rowRanks (revRows b) = (rowRanks b).map List.reverse := by
  simp only [rowRanks, revRows, List.map_map]
  apply List.map_congr_left
  intro g _
  simp [ranksOf, reverse]

theorem moveRanksSpec_revRows (b : BOARD) (hb : WF b) :
    moveRanksSpec (revRows b) Direction.LEFT = (moveRanksSpec b Direction.RIGHT).map List.reverse := by
  rw [moveRanksSpec, moveRanksSpec, linesOf_eq _ (revRows_WF b hb), linesOf_eq b hb]
  simp [revRows, List.map_map]

theorem moveScoreSpec_revRows (b : BOARD) (hb : WF b) :
    moveScoreSpec (revRows b) Direction.LEFT = moveScoreSpec b Direction.RIGHT := by
  rw [moveScoreSpec, moveScoreSpec, linesOf_eq _ (revRows_WF b hb), linesOf_eq b hb]
  simp [revRows, List.map_map]
  rfl

theorem moveRanksSpec_transpose_left (b : BOARD) :
    moveRanksSpec (transpose b) Direction.LEFT = (colsOf b).map lineRanks := by
  rw [moveRanksSpec, linesOf_eq (transpose b) (transpose_WF b)]
  rfl

theorem moveRanksSpec_up (b : BOARD) :
    moveRanksSpec b Direction.UP = transposeR (moveRanksSpec (transpose b) Direction.LEFT) := by
  rw [moveRanksSpec_transpose_left]
  rfl

theorem moveScoreSpec_up (b : BOARD) :
    moveScoreSpec (transpose b) Direction.LEFT = moveScoreSpec b Direction.UP := by
  simp only [moveScoreSpec]
  rw [linesOf_eq (transpose b) (transpose_WF b)]
  rfl

theorem moveRanksSpec_transpose_right (b : BOARD) :
    moveRanksSpec (transpose b) Direction.RIGHT =
      (colsOf b).map (fun l => (lineRanks (reverse l)).reverse) := by
  rw [moveRanksSpec, linesOf_eq (transpose b) (transpose_WF b)]
  rfl

theorem moveRanksSpec_down (b : BOARD) :
    moveRanksSpec b Direction.DOWN = transposeR (moveRanksSpec (transpose b) Direction.RIGHT) := by
  rw [moveRanksSpec_transpose_right]
  rfl

theorem moveScoreSpec_down (b : BOARD) :
    moveScoreSpec (transpose b) Direction.RIGHT = moveScoreSpec b Direction.DOWN := by
  simp only [moveScoreSpec]
  rw [linesOf_eq (transpose b) (transpose_WF b)]
  rfl

theorem transposeR_transposeR (m : List (List Nat)) (hm : m.length = 4)
    (hrows : ∀ row ∈ m, row.length = 4) : transposeR (transposeR m) = m := by
  obtain ⟨a, b, c, d, rfl⟩ := length_four_destruct m hm
  obtain ⟨a0, a1, a2, a3, rfl⟩ := length_four_destruct a (hrows a (by simp))
  obtain ⟨b0, b1, b2, b3, rfl⟩ := length_four_destruct b (hrows b (by simp))
  obtain ⟨c0, c1, c2, c3, rfl⟩ := length_four_destruct c (hrows c (by simp))
  obtain ⟨d0, d1, d2, d3, rfl⟩ := length_four_destruct d (hrows d (by simp))
  rfl

theorem eq_transposeR_iff (X M : List (List Nat))
    (hX : X.length = 4) (hXr : ∀ row ∈ X, row.length = 4)
    (hM : M.length = 4) (hMr : ∀ row ∈ M, row.length = 4) :
    X = transposeR M ↔ transposeR X = M := by
  constructor
  · rintro rfl
    exact transposeR_transposeR M hM hMr
  · rintro rfl
    exact (transposeR_transposeR X hX hXr).symm

theorem rowRanks_length (b : BOARD) : (rowRanks b).length = b.length := by
  simp [rowRanks]

theorem moveRanksSpec_length (b : BOARD) (hb : WF b) (d : Direction) :
    (moveRanksSpec b d).length = 4 := by
  cases d <;>
    simp [moveRanksSpec, transposeR, linesOf_eq b hb, hb.1, BOARD_SIZE]

theorem cond_right_iff (b : BOARD) (hb : WF b) :
    just_values b = (moveRanksSpec b Direction.RIGHT).flatten ↔
    just_values (revRows b) = (moveRanksSpec (revRows b) Direction.LEFT).flatten := by
  rw [just_values_eq, just_values_eq,
    flatten_inj _ _ (rowRanks_rows_of_WF b hb) (moveRanksSpec_rows b hb Direction.RIGHT),
    flatten_inj _ _ (rowRanks_rows_of_WF _ (revRows_WF b hb))
      (moveRanksSpec_rows _ (revRows_WF b hb) Direction.LEFT),
    rowRanks_revRows, moveRanksSpec_revRows b hb]
  constructor
  · intro h
    rw [h]
  · intro h
    exact List.map_injective_iff.mpr List.reverse_injective h

theorem cond_up_iff (b : BOARD) (hb : WF b) :
    just_values b = (moveRanksSpec b Direction.UP).flatten ↔
    just_values (transpose b) = (moveRanksSpec (transpose b) Direction.LEFT).flatten := by
  rw [just_values_eq, just_values_eq,
    flatten_inj _ _ (rowRanks_rows_of_WF b hb) (moveRanksSpec_rows b hb Direction.UP),
    flatten_inj _ _ (rowRanks_rows_of_WF _ (transpose_WF b))
      (moveRanksSpec_rows _ (transpose_WF b) Direction.LEFT),
    rowRanks_transpose, moveRanksSpec_up b]
  exact eq_transposeR_iff (rowRanks b) (moveRanksSpec (transpose b) Direction.LEFT)
    (by rw [rowRanks_length]; exact hb.1)
    (fun row hr => rowRanks_rows_of_WF b hb row hr)
    (moveRanksSpec_length _ (transpose_WF b) _)
    (moveRanksSpec_rows _ (transpose_WF b) Direction.LEFT)

theorem cond_down_iff (b : BOARD) (hb : WF b) :
    just_values b = (moveRanksSpec b Direction.DOWN).flatten ↔
    just_values (transpose b) = (moveRanksSpec (transpose b) Direction.RIGHT).flatten := by
  rw [just_values_eq, just_values_eq,
    flatten_inj _ _ (rowRanks_rows_of_WF b hb) (moveRanksSpec_rows b hb Direction.DOWN),
    flatten_inj _ _ (rowRanks_rows_of_WF _ (transpose_WF b))
      (moveRanksSpec_rows _ (transpose_WF b) Direction.RIGHT),
    rowRanks_transpose, moveRanksSpec_down b]
  exact eq_transposeR_iff (rowRanks b) (moveRanksSpec (transpose b) Direction.RIGHT)
    (by rw [rowRanks_length]; exact hb.1)
    (fun row hr => rowRanks_rows_of_WF b hb row hr)
    (moveRanksSpec_length _ (transpose_WF b) _)
    (moveRanksSpec_rows _ (transpose_WF b) Direction.RIGHT)

theorem moveProj_right (b : BOARD) (hb : WF b) (r r' : Rng) :
    moveRanksProj b Direction.RIGHT r =
      (moveRanksProj (revRows b) Direction.LEFT r').map
        (fun p => (p.1.map (fun m => m.map List.reverse), p.2)) := by
  by_cases hcond : just_values b = (moveRanksSpec b Direction.RIGHT).flatten
  · obtain ⟨r1, hmv⟩ := (move_char b hb Direction.RIGHT r).1 hcond
    obtain ⟨r1', hmv'⟩ := (move_char (revRows b) (revRows_WF b hb) Direction.LEFT r').1
      ((cond_right_iff b hb).mp hcond)
    rw [moveRanksProj, moveRanksProj, hmv, hmv']
    rfl
  · obtain ⟨out, r1, hmv, hranks, -⟩ := (move_char b hb Direction.RIGHT r).2 hcond
    obtain ⟨out', r1', hmv', hranks', -⟩ :=
      (move_char (revRows b) (revRows_WF b hb) Direction.LEFT r').2
        (fun hc => hcond ((cond_right_iff b hb).mpr hc))
    rw [moveRanksProj, moveRanksProj, hmv, hmv']
    simp only [Option.map_some']
    rw [hranks, hranks', moveRanksSpec_revRows b hb, moveScoreSpec_revRows b hb]
    simp [List.map_map]

theorem moveProj_up (b : BOARD) (hb : WF b) (r r' : Rng) :
    moveRanksProj b Direction.UP r =
      (moveRanksProj (transpose b) Direction.LEFT r').map
        (fun p => (p.1.map transposeR, p.2)) := by
  by_cases hcond : just_values b = (moveRanksSpec b Direction.UP).flatten
  · obtain ⟨r1, hmv⟩ := (move_char b hb Direction.UP r).1 hcond
    obtain ⟨r1', hmv'⟩ := (move_char (transpose b) (transpose_WF b) Direction.LEFT r').1
      ((cond_up_iff b hb).mp hcond)
    rw [moveRanksProj, moveRanksProj, hmv, hmv']
    rfl
  · obtain ⟨out, r1, hmv, hranks, -⟩ := (move_char b hb Direction.UP r).2 hcond
    obtain ⟨out', r1', hmv', hranks', -⟩ :=
      (move_char (transpose b) (transpose_WF b) Direction.LEFT r').2
        (fun hc => hcond ((cond_up_iff b hb).mpr hc))
    rw [moveRanksProj, moveRanksProj, hmv, hmv']
    simp only [Option.map_some']
    rw [hranks, hranks', ← moveScoreSpec_up b, moveRanksSpec_up b]

theorem moveProj_down (b : BOARD) (hb : WF b) (r r' : Rng) :
    moveRanksProj b Direction.DOWN r =
      (moveRanksProj (transpose b) Direction.RIGHT r').map
        (fun p => (p.1.map transposeR, p.2)) := by
  by_cases hcond : just_values b = (moveRanksSpec b Direction.DOWN).flatten
  · obtain ⟨r1, hmv⟩ := (move_char b hb Direction.DOWN r).1 hcond
    obtain ⟨r1', hmv'⟩ := (move_char (transpose b) (transpose_WF b) Direction.RIGHT r').1
      ((cond_down_iff b hb).mp hcond)
    rw [moveRanksProj, moveRanksProj, hmv, hmv']
    rfl
  · obtain ⟨out, r1, hmv, hranks, -⟩ := (move_char b hb Direction.DOWN r).2 hcond
    obtain ⟨out', r1', hmv', hranks', -⟩ :=
      (move_char (transpose b) (transpose_WF b) Direction.RIGHT r').2
        (fun hc => hcond ((cond_down_iff b hb).mpr hc))
    rw [moveRanksProj, moveRanksProj, hmv, hmv']
    simp only [Option.map_some']
    rw [hranks, hranks', ← moveScoreSpec_down b, moveRanksSpec_down b]

/-- C2: combine_values drops empty cells preserving order and then
walks the dense list left to right making one merge decision at a
time — two rank-1 cells merge to rank 2 keeping the second key and
adding 2; cells of adjacent ranks merge to max + 1 keeping the second
key and adding the sum of the ranks; any other cell is emitted
unchanged; a consumed cell is never reconsidered.  Formally: the
indexed loop equals the one-decision-at-a-time recursion combineSpec
on the filtered line. -/
theorem claim_C2_combine (group : GROUP) :
    combine_values group = combineSpec (group.filter (fun cell => cell.1 != 0)) :=
  combine_values_eq_spec group

/-- C3: move returns (None, 0) exactly when the rank sequence of the
combined-and-padded board equals the rank sequence of the input, and
that rank sequence (moveRanksSpec) is computed from ranks alone, so the
comparison ignores identity keys. -/
theorem claim_C3_move_none_iff (b : BOARD) (hb : WF b) (d : Direction) (r : Rng) :
    ∃ nb s r', moveRaw b d r = (some (nb, s), r') ∧
      ((move b d r).1 = some (none, 0) ↔ just_values nb = just_values b) ∧
      rowRanks nb = moveRanksSpec b d := by
  obtain ⟨nb, r', hraw, hranks, hWFout⟩ := moveRaw_char b hb d r
  refine ⟨nb, moveScoreSpec b d, r', hraw, ?_, hranks⟩
  rw [move, hraw]
  by_cases hc : just_values b = just_values nb
  · simp [hc, eq_comm]
  · simp [hc, eq_comm]

theorem claim_C3_witness :
    ∃ nb s r', moveRaw Bstar Direction.UP zeroRng = (some (nb, s), r') ∧
      ((move Bstar Direction.UP zeroRng).1 = some (none, 0) ↔
        just_values nb = just_values Bstar) ∧
      rowRanks nb = moveRanksSpec Bstar Direction.UP :=
  claim_C3_move_none_iff Bstar (by decide) Direction.UP zeroRng

/-- C5: on a board with an empty cell, with_random_tile fills exactly
one empty cell — the one indexed by the uniform choice draw — with
rank 1 on the 9-in-10 draw and rank 2 otherwise, under a freshly drawn
identity key; every other cell is unchanged and the occupied count
rises by exactly one.  On a full board it returns the board unchanged. -/
theorem claim_C5_spawn (b : BOARD) (r : Rng) (hb : WF b) :
    (empty_tiles b = [] → with_random_tile b r = (b, r)) ∧
    (empty_tiles b ≠ [] →
      ∃ i j v k,
        (i, j) = (empty_tiles b).getD (r.s r.pos % (empty_tiles b).length) (0, 0) ∧
        (i, j) ∈ empty_tiles b ∧ (cellAt b i j).1 = 0 ∧
        (v = 1 ↔ r.s (r.pos + 1) % 10 < 9) ∧ (v = 1 ∨ v = 2) ∧
        k = r.s (r.pos + 2) % 1000001 ∧
        cellAt (with_random_tile b r).1 i j = (v, k) ∧
        (∀ i' j', i' < BOARD_SIZE → j' < BOARD_SIZE → (i', j') ≠ (i, j) →
          cellAt (with_random_tile b r).1 i' j' = cellAt b i' j') ∧
        occupiedCount (with_random_tile b r).1 = occupiedCount b + 1) := by
  constructor
  · intro h
    simp [with_random_tile, h]
  · intro hne
    have hlen : 0 < (empty_tiles b).length := List.length_pos.mpr hne
    have hidx : r.s r.pos % (empty_tiles b).length < (empty_tiles b).length :=
      Nat.mod_lt _ hlen
    have hmem : (empty_tiles b).getD (r.s r.pos % (empty_tiles b).length) (0, 0) ∈
        empty_tiles b := getD_mem_of_lt _ _ _ hidx
    obtain ⟨hi, hj, hz⟩ := (empty_tiles_mem b _ _).mp hmem
    have hun : with_random_tile b r =
        insert_value b ((empty_tiles b).getD (r.s r.pos % (empty_tiles b).length) (0, 0)).1
          ((empty_tiles b).getD (r.s r.pos % (empty_tiles b).length) (0, 0)).2
          (if r.s (r.pos + 1) % 10 < 9 then 1 else 2) ⟨r.s, r.pos + 2⟩ := by
      rw [with_random_tile, if_neg (by simp [List.isEmpty_iff, hne])]
      rfl
    refine ⟨_, _, if r.s (r.pos + 1) % 10 < 9 then 1 else 2, r.s (r.pos + 2) % 1000001,
      rfl, hmem, hz, ?_, ?_, rfl, ?_, ?_, ?_⟩
    · by_cases hcond : r.s (r.pos + 1) % 10 < 9 <;> simp [hcond]
    · by_cases hcond : r.s (r.pos + 1) % 10 < 9 <;> simp [hcond]
    · rw [hun]
      exact insert_value_cellAt_self b _ _ _ _ hi hj
    · intro i' j' hi' hj' hne'
      rw [hun]
      exact insert_value_cellAt_other b _ _ _ _ i' j' hi' hj' hne'
    · rw [hun]
      exact occupied_insert b hb _ _ _ _ hi hj hz
        (by by_cases hcond : r.s (r.pos + 1) % 10 < 9 <;> simp [hcond])

/-- C6: the score delta returned by move is never negative. -/
theorem claim_C6_score_nonneg (b : BOARD) (d : Direction) (r : Rng)
    (res : Option BOARD × Int) (r' : Rng) (h : move b d r = (some res, r')) :
    0 ≤ res.2 :=
  move_score_nonneg_any b d r res r' h

theorem claim_C6_witness : (0 : Int) ≤ ((none, 0) : Option BOARD × Int).2 :=
  claim_C6_score_nonneg emptyBoard Direction.UP zeroRng (none, 0)
    (move emptyBoard Direction.UP zeroRng).2
    (Prod.ext (by decide) rfl)

/-- C8: pad_values fails exactly on lines longer than BOARD_SIZE,
combine_values never lengthens a line, and consequently move never
raises on a well-formed board: the construction error is unreachable
through the public move contract. -/
theorem claim_C8_pad_unreachable :
    (∀ (v : List CELL) (r : Rng), (pad_values v r).1 = none ↔ BOARD_SIZE < v.length) ∧
    (∀ gp : GROUP, (combine_values gp).1.length ≤ gp.length) ∧
    (∀ (b : BOARD) (d : Direction) (r : Rng), WF b → (move b d r).1 ≠ none) := by
  refine ⟨pad_values_none_iff, combine_values_length, ?_⟩
  intro b d r hb
  obtain ⟨res, r', hmv, -⟩ := move_some b hb d r
  rw [hmv]
  simp

theorem claim_C8_witness : (move emptyBoard Direction.LEFT zeroRng).1 ≠ none :=
  claim_C8_pad_unreachable.2.2 emptyBoard Direction.LEFT zeroRng (by decide)

theorem claim_C5_witness :
    (empty_tiles Bstar = [] → with_random_tile Bstar zeroRng = (Bstar, zeroRng)) ∧
    (empty_tiles Bstar ≠ [] →
      ∃ i j v k,
        (i, j) = (empty_tiles Bstar).getD
          (zeroRng.s zeroRng.pos % (empty_tiles Bstar).length) (0, 0) ∧
        (i, j) ∈ empty_tiles Bstar ∧ (cellAt Bstar i j).1 = 0 ∧
        (v = 1 ↔ zeroRng.s (zeroRng.pos + 1) % 10 < 9) ∧ (v = 1 ∨ v = 2) ∧
        k = zeroRng.s (zeroRng.pos + 2) % 1000001 ∧
        cellAt (with_random_tile Bstar zeroRng).1 i j = (v, k) ∧
        (∀ i' j', i' < BOARD_SIZE → j' < BOARD_SIZE → (i', j') ≠ (i, j) →
          cellAt (with_random_tile Bstar zeroRng).1 i' j' = cellAt Bstar i' j') ∧
        occupiedCount (with_random_tile Bstar zeroRng).1 = occupiedCount Bstar + 1) :=
  claim_C5_spawn Bstar zeroRng (by decide)

/-- C7: the RIGHT move is the LEFT move on the row-reversed board with
each result row re-reversed, and the UP and DOWN moves are the LEFT and
RIGHT moves on the transposed board with the result transposed back —
as equalities of rank matrices and score deltas, for any random
streams on the two sides. -/
theorem claim_C7_symmetry (b : BOARD) (hb : WF b) (r r' : Rng) :
    moveRanksProj b Direction.RIGHT r =
      (moveRanksProj (revRows b) Direction.LEFT r').map
        (fun p => (p.1.map (fun m => m.map List.reverse), p.2)) ∧
    moveRanksProj b Direction.UP r =
      (moveRanksProj (transpose b) Direction.LEFT r').map
        (fun p => (p.1.map transposeR, p.2)) ∧
    moveRanksProj b Direction.DOWN r =
      (moveRanksProj (transpose b) Direction.RIGHT r').map
        (fun p => (p.1.map transposeR, p.2)) :=
  ⟨moveProj_right b hb r r', moveProj_up b hb r r', moveProj_down b hb r r'⟩

theorem claim_C7_witness :
    moveRanksProj Bstar Direction.RIGHT zeroRng =
      (moveRanksProj (revRows Bstar) Direction.LEFT zeroRng).map
        (fun p => (p.1.map (fun m => m.map List.reverse), p.2)) ∧
    moveRanksProj Bstar Direction.UP zeroRng =
      (moveRanksProj (transpose Bstar) Direction.LEFT zeroRng).map
        (fun p => (p.1.map transposeR, p.2)) ∧
    moveRanksProj Bstar Direction.DOWN zeroRng =
      (moveRanksProj (transpose Bstar) Direction.RIGHT zeroRng).map
        (fun p => (p.1.map transposeR, p.2)) :=
  claim_C7_symmetry Bstar (by decide) zeroRng zeroRng

/-- C9: on a well-formed board that is not game over, best_move always
returns a score of at least -1 — the initial accumulator — and in
particular never the game-over sentinel; when every non-skipped
direction's candidate value is -1 or lower, it returns Direction.UP
with score -1 whether or not UP is a legal move. -/
theorem claim_C9_floor (b : BOARD) (depth breadth : Nat) (r : Rng)
    (hb : WF b) (hbr : 1 ≤ breadth) (hng : notGameOver b) :
    ∃ d s r2, best_move depth b breadth r = (some (d, s), r2) ∧ (-1 : Int) ≤ s ∧
      (∀ l r', bmTotals (bmRecur breadth depth) depth breadth b allDirections
          (is_game_over b r).2 = (some l, r') →
        (∀ d' t', (d', some t') ∈ l → t' ≤ -1) → d = Direction.UP ∧ s = -1) := by
  obtain ⟨l0, r1, r2, hgo, hbt, hbm⟩ := best_move_char depth breadth b hb r
  refine ⟨(selectFrom Direction.UP (-1) l0).1, (selectFrom Direction.UP (-1) l0).2, r2,
    by rw [hbm], selectFrom_ge l0 Direction.UP (-1), ?_⟩
  intro l r' hbt' hle
  rw [hgo] at hbt'
  rw [hbt] at hbt'
  injection hbt' with h1 h2
  injection h1 with h1
  rw [← h1] at hle
  rcases selectFrom_cases l0 Direction.UP (-1) with ⟨hsel, -⟩ | ⟨l1, d, t, l2, hsplit, hsel, hlt, -, -⟩
  · rw [hsel]
    exact ⟨rfl, rfl⟩
  · exfalso
    have hmem : (d, some t) ∈ l0 := by
      rw [hsplit]
      simp
    have := hle d t hmem
    omega

theorem claim_C9_witness :
    ∃ d s r2, best_move 0 Bstar 1 zeroRng = (some (d, s), r2) ∧ (-1 : Int) ≤ s ∧
      (∀ l r', bmTotals (bmRecur 1 0) 0 1 Bstar allDirections
          (is_game_over Bstar zeroRng).2 = (some l, r') →
        (∀ d' t', (d', some t') ∈ l → t' ≤ -1) → d = Direction.UP ∧ s = -1) :=
  claim_C9_floor Bstar 0 1 zeroRng (by decide) (by decide)
    ⟨Direction.DOWN, _, _, _, rfl⟩

/-- C1 (counterexample): on Bstar with depth 1, breadth 1 and the zero
stream, best_move returns Direction.UP — a direction whose move is
(None, 0), i.e. skipped — even though DOWN and LEFT are non-skipped
candidates, because every candidate total equals -1 and the accumulator
starts at -1 with Direction.UP. -/
theorem claim_C1_counterexample :
    (best_move 1 Bstar 1 zeroRng).1 = some (Direction.UP, -1) ∧
    (move Bstar Direction.UP zeroRng).1 = some (none, 0) ∧
    ((move Bstar Direction.DOWN zeroRng).1.map (fun p => (p.1.isSome, p.2))) =
      some (true, 0) ∧
    ((move Bstar Direction.LEFT zeroRng).1.map (fun p => (p.1.isSome, p.2))) =
      some (true, 0) := by
  decide

/-- C1 (amended): best_move walks the four directions in enumeration
order UP, DOWN, LEFT, RIGHT, skipping those whose move returns None;
whenever some non-skipped direction's total value exceeds -1, it
returns the first non-skipped direction of strictly greatest total
(ties keep the earlier direction); but when every non-skipped
direction's total is -1 or lower, it returns Direction.UP with value
-1, regardless of whether UP is itself skipped. -/
theorem claim_C1_amended (b : BOARD) (depth breadth : Nat) (r : Rng)
    (hb : WF b) (hbr : 1 ≤ breadth) (hng : notGameOver b) :
    ∃ l r1 r2, is_game_over b r = (some false, r1) ∧
      bmTotals (bmRecur breadth depth) depth breadth b allDirections r1 = (some l, r2) ∧
      ((∃ d0 t0, (d0, some t0) ∈ l ∧ (-1 : Int) < t0) →
        ∃ l1 d t l2, l = l1 ++ (d, some t) :: l2 ∧
          best_move depth b breadth r = (some (d, t), r2) ∧ (-1 : Int) < t ∧
          (∀ d' t', (d', some t') ∈ l1 → t' < t) ∧
          (∀ d' t', (d', some t') ∈ l2 → t' ≤ t)) ∧
      ((∀ d' t', (d', some t') ∈ l → t' ≤ -1) →
        best_move depth b breadth r = (some (Direction.UP, -1), r2)) := by
  obtain ⟨l, r1, r2, hgo, hbt, hbm⟩ := best_move_char depth breadth b hb r
  refine ⟨l, r1, r2, hgo, hbt, ?_, ?_⟩
  · rintro ⟨d0, t0, hmem0, hgt0⟩
    rcases selectFrom_cases l Direction.UP (-1) with ⟨hsel, hall⟩ |
      ⟨l1, d, t, l2, hsplit, hsel, hlt, hl1, hl2⟩
    · exfalso
      have := hall d0 t0 hmem0
      omega
    · refine ⟨l1, d, t, l2, hsplit, ?_, hlt, hl1, hl2⟩
      rw [hbm, hsel]
  · intro hle
    rcases selectFrom_cases l Direction.UP (-1) with ⟨hsel, -⟩ |
      ⟨l1, d, t, l2, hsplit, hsel, hlt, -, -⟩
    · rw [hbm, hsel]
    · exfalso
      have hmem : (d, some t) ∈ l := by
        rw [hsplit]
        simp
      have := hle d t hmem
      omega

theorem claim_C1_witness :
    ∃ l r1 r2, is_game_over Bstar zeroRng = (some false, r1) ∧
      bmTotals (bmRecur 1 1) 1 1 Bstar allDirections r1 = (some l, r2) ∧
      ((∃ d0 t0, (d0, some t0) ∈ l ∧ (-1 : Int) < t0) →
        ∃ l1 d t l2, l = l1 ++ (d, some t) :: l2 ∧
          best_move 1 Bstar 1 zeroRng = (some (d, t), r2) ∧ (-1 : Int) < t ∧
          (∀ d' t', (d', some t') ∈ l1 → t' < t) ∧
          (∀ d' t', (d', some t') ∈ l2 → t' ≤ t)) ∧
      ((∀ d' t', (d', some t') ∈ l → t' ≤ -1) →
        best_move 1 Bstar 1 zeroRng = (some (Direction.UP, -1), r2)) :=
  claim_C1_amended Bstar 1 1 zeroRng (by decide) (by decide)
    ⟨Direction.DOWN, _, _, _, rfl⟩

/-- C4 (code bug): the all-empty board is game over in the sense of the
specification — every direction's move returns (None, 0) — yet
best_move does not return the -123456789 sentinel for it: because
is_game_over tests the returned (board, score) tuple against None, the
sentinel branch is unreachable and best_move falls through the loop to
(Direction.UP, -1), even at the reference search parameters depth 3,
breadth 4. -/
theorem claim_C4_sentinel_dead :
    (move emptyBoard Direction.UP zeroRng).1 = some (none, 0) ∧
    (move emptyBoard Direction.DOWN zeroRng).1 = some (none, 0) ∧
    (move emptyBoard Direction.LEFT zeroRng).1 = some (none, 0) ∧
    (move emptyBoard Direction.RIGHT zeroRng).1 = some (none, 0) ∧
    (best_move 0 emptyBoard 1 zeroRng).1 = some (Direction.UP, -1) ∧
    (best_move 3 emptyBoard 4 zeroRng).1 = some (Direction.UP, -1) := by
  refine ⟨?_, ?_, ?_, ?_, ?_, ?_⟩ <;> decide

/-- C10 (code bug): on the all-empty board, the combine-and-pad
transform leaves the all-zero rank layout unchanged, so move returns
(None, 0) for all four directions; the specification therefore calls
this board game over, but is_game_over returns false, because
`self.move(direction) is None` tests the returned 2-tuple — which is
never the None singleton — rather than its board component. -/
theorem claim_C10_empty_board_game_over :
    (move emptyBoard Direction.UP zeroRng).1 = some (none, 0) ∧
    (move emptyBoard Direction.DOWN zeroRng).1 = some (none, 0) ∧
    (move emptyBoard Direction.LEFT zeroRng).1 = some (none, 0) ∧
    (move emptyBoard Direction.RIGHT zeroRng).1 = some (none, 0) ∧
    (is_game_over emptyBoard zeroRng).1 = some false := by
  refine ⟨?_, ?_, ?_, ?_, ?_⟩ <;> decide
